import Mathlib

/-!
Shallow embedding of the day05 interval-remapping pipeline
(src/day05/src/{map.rs, map_entry.rs, seed_ranges.rs, lib.rs}).

Machine integers `i64` are modelled as `Int`; the algorithms here perform
no arithmetic that the puzzle domain would bring near the `i64` boundaries,
and the spec describes them over plain integers.  Fallible operations
(`Option::unwrap` panics, `Result` values) are modelled with `Option` and
`Except`.
-/

namespace Day05

/-- Entry record from src/day05/src/map_entry.rs (`MapEntry`). -/
structure MapEntry where
  destination_start : Int
  source_start : Int
  range_length : Int
deriving DecidableEq, Repr

namespace MapEntry

/-- MapEntry::source_end: one past the last source value covered. -/
def source_end (e : MapEntry) : Int := e.source_start + e.range_length

/-- MapEntry::contains: membership of the half-open source range. -/
def contains (e : MapEntry) (v : Int) : Prop :=
  e.source_start ≤ v ∧ v < e.source_end

instance (e : MapEntry) (v : Int) : Decidable (e.contains v) :=
  inferInstanceAs (Decidable (e.source_start ≤ v ∧ v < e.source_end))

/-- MapEntry::delta: the constant offset from source to destination. -/
def delta (e : MapEntry) : Int := e.destination_start - e.source_start

/-- MapEntry::apply: shift a contained value by delta, otherwise identity. -/
def apply (e : MapEntry) (v : Int) : Int :=
  if e.contains v then v + e.delta else v

end MapEntry

/-- Interval record from src/day05/src/seed_ranges.rs (`SeedRange`),
representing the half-open range of start..start+length. -/
structure SeedRange where
  start : Int
  length : Int
deriving DecidableEq, Repr

namespace SeedRange

/-- SeedRange::contains: membership of the half-open range. -/
def contains (r : SeedRange) (v : Int) : Prop :=
  r.start ≤ v ∧ v < r.start + r.length

instance (r : SeedRange) (v : Int) : Decidable (r.contains v) :=
  inferInstanceAs (Decidable (r.start ≤ v ∧ v < r.start + r.length))

/-- SeedRange::split_at: split at a contained point; the first part keeps
the original start, the second part starts at the split point. -/
def split_at (r : SeedRange) (split_point : Int) : Option (SeedRange × SeedRange) :=
  if r.contains split_point then
    some (⟨r.start, split_point - r.start⟩,
          ⟨split_point, r.start + r.length - split_point⟩)
  else
    none

/-- Modelled from the spec: `SeedRange::end` (used as `range.end()` in
src/day05/src/map.rs but not itself under src/); the spec defines an
Interval with start and length as representing the half-open range
start..start+length, so its end is start + length. -/
def endPos (r : SeedRange) : Int := r.start + r.length

/-- Modelled from the spec: the addition operator on `SeedRange` and `i64`
(used as `segment + entry.delta()` in src/day05/src/map.rs but not itself
under src/); the spec says fragments are appended "shifted by
`entry.delta`", i.e. the start moves by the offset and the length is kept. -/
def shift (r : SeedRange) (d : Int) : SeedRange := ⟨r.start + d, r.length⟩

end SeedRange

/-- Error enum from src/day05/src/lib.rs, restricted to the variants the
core algebra can produce (the Io variant wraps ambient I/O failures and
Parse wraps text parsing, both outside the core algorithms). -/
inductive Error where
  | Parse (msg : String)
  | Overlaps (name : String) (input : Int) (output1 : Int) (output2 : Int)
  | NoSolution
deriving DecidableEq, Repr

/-- Stage record from src/day05/src/map.rs (`Map`). -/
structure Map where
  name : String
  entries : List MapEntry
deriving DecidableEq, Repr

/-- Comparison key used by `self.entries.sort_by_key(|entry| entry.source_start)`. -/
def entryLE (a b : MapEntry) : Prop := a.source_start ≤ b.source_start

instance : DecidableRel entryLE := fun a b =>
  inferInstanceAs (Decidable (a.source_start ≤ b.source_start))

instance : IsTotal MapEntry entryLE := ⟨fun a b => Int.le_total a.source_start b.source_start⟩

instance : IsTrans MapEntry entryLE := ⟨fun _ _ _ h1 h2 => le_trans h1 h2⟩

/-- Rust `sort_by_key` is a stable sort; `List.insertionSort` is the stable
sort over the same key order, so it computes the identical list. -/
def sortEntries (entries : List MapEntry) : List MapEntry :=
  List.insertionSort entryLE entries

/-- The `windows(2)` loop of Map::validate: scan adjacent sorted pairs; an
overlapping pair that agrees on the shared boundary input is skipped, a
disagreeing one aborts with Error::Overlaps. -/
def checkPairs (name : String) : List MapEntry → Except Error Unit
  | left :: right :: rest =>
    if right.source_start < left.source_end then
      if left.apply right.source_start = right.apply right.source_start then
        checkPairs name (right :: rest)
      else
        .error (.Overlaps name right.source_start
          (left.apply right.source_start) (right.apply right.source_start))
    else
      checkPairs name (right :: rest)
  | _ => .ok ()

/-- Map::new composed with Map::validate: sort by source_start, run the
adjacent-pair check, and keep the sorted entries on success. -/
def Map.new (name : String) (entries : List MapEntry) : Except Error Map :=
  match checkPairs name (sortEntries entries) with
  | .ok _ => .ok ⟨name, sortEntries entries⟩
  | .error e => .error e

/-- The linear scan of Map::apply over the entry list. -/
def applyEntries : List MapEntry → Int → Int
  | [], v => v
  | e :: rest, v => if e.contains v then e.apply v else applyEntries rest v

/-- Map::apply: first containing entry wins, otherwise identity. -/
def Map.apply (m : Map) (value : Int) : Int := applyEntries m.entries value

/-- The entry-walking loop of Map::apply_range.  Returns the fragments
pushed inside the loop together with the final `range` value (the caller
appends it when its length is still positive).  The two `.unwrap()` calls
on `split_at` model a Rust panic as `none`. -/
def applyRangeGo : List MapEntry → SeedRange → Option (List SeedRange × SeedRange)
  | [], range => some ([], range)
  | e :: rest, range =>
    if e.source_end ≤ range.start then
      -- fast-forward: the entry lies wholly before the remaining range
      applyRangeGo rest range
    else if range.endPos ≤ e.source_start then
      -- overshot: the entry lies wholly after the remaining range
      some ([], range)
    else if range.start < e.source_start then
      match range.split_at e.source_start with
      | none => none
      | some (segment, range1) =>
        if e.source_end < range1.endPos then
          match range1.split_at e.source_end with
          | none => none
          | some (seg2, range2) =>
            match applyRangeGo rest range2 with
            | none => none
            | some (out2, rem) => some (segment :: seg2.shift e.delta :: out2, rem)
        else
          some ([segment, range1.shift e.delta], ⟨range1.start, 0⟩)
    else
      if e.source_end < range.endPos then
        match range.split_at e.source_end with
        | none => none
        | some (seg2, range2) =>
          match applyRangeGo rest range2 with
          | none => none
          | some (out2, rem) => some (seg2.shift e.delta :: out2, rem)
      else
        some ([range.shift e.delta], ⟨range.start, 0⟩)

/-- Map::apply_range: run the loop, then append the remaining range when it
still has positive length. -/
def Map.apply_range (m : Map) (range : SeedRange) : Option (List SeedRange) :=
  match applyRangeGo m.entries range with
  | none => none
  | some (out, rem) => some (if 0 < rem.length then out ++ [rem] else out)

/-- Rust Iterator::min over a list of integers: none exactly on the empty
collection. -/
def listMin : List Int → Option Int
  | [] => none
  | a :: rest => some (rest.foldl min a)

/-- Core of part1 (src/day05/src/lib.rs) after parsing: fold every seed
through every stage in order, then take the minimum. -/
def part1Core (seeds : List Int) (maps : List Map) : Except Error Int :=
  match listMin (seeds.map fun v => maps.foldl (fun value m => m.apply value) v) with
  | some v => .ok v
  | none => .error .NoSolution

/-- One stage of part2: apply the map to every range and concatenate the
fragments, propagating a panic as none. -/
def applyAllRanges (m : Map) : List SeedRange → Option (List SeedRange)
  | [] => some []
  | r :: rest =>
    match m.apply_range r, applyAllRanges m rest with
    | some frags, some out => some (frags ++ out)
    | _, _ => none

/-- The stage loop of part2: thread the interval collection through every
stage in order. -/
def pipelineRanges : List Map → List SeedRange → Option (List SeedRange)
  | [], ranges => some ranges
  | m :: rest, ranges =>
    match applyAllRanges m ranges with
    | none => none
    | some next => pipelineRanges rest next

/-- Core of part2 (src/day05/src/lib.rs) after parsing: push the interval
collection through the pipeline, then take the minimum start. -/
def part2Core (ranges : List SeedRange) (maps : List Map) : Option (Except Error Int) :=
  match pipelineRanges maps ranges with
  | none => none
  | some final =>
    some (match listMin (final.map SeedRange.start) with
          | some v => .ok v
          | none => .error .NoSolution)

end Day05

namespace Day05

/-! Helper lemmas about the embedded operations. -/

theorem SeedRange.shift_length (r : SeedRange) (d : Int) : (r.shift d).length = r.length := rfl

theorem SeedRange.shift_start (r : SeedRange) (d : Int) : (r.shift d).start = r.start + d := rfl

theorem SeedRange.split_at_eq_some_iff {r : SeedRange} {p : Int} {a b : SeedRange} :
    r.split_at p = some (a, b) ↔
      r.contains p ∧ a = ⟨r.start, p - r.start⟩ ∧ b = ⟨p, r.start + r.length - p⟩ := by
  unfold SeedRange.split_at
  split
  · rename_i hc
    simp only [Option.some.injEq, Prod.mk.injEq]
    constructor
    · rintro ⟨h1, h2⟩; exact ⟨hc, h1.symm, h2.symm⟩
    · rintro ⟨-, h1, h2⟩; exact ⟨h1.symm, h2.symm⟩
  · rename_i hc
    simp only [reduceCtorEq, false_iff]
    rintro ⟨h, -, -⟩; exact hc h

theorem SeedRange.split_at_eq_none_iff {r : SeedRange} {p : Int} :
    r.split_at p = none ↔ ¬ r.contains p := by
  unfold SeedRange.split_at
  split <;> simp_all

theorem SeedRange.split_at_of_contains {r : SeedRange} {p : Int} (hc : r.contains p) :
    r.split_at p = some (⟨r.start, p - r.start⟩, ⟨p, r.start + r.length - p⟩) :=
  SeedRange.split_at_eq_some_iff.mpr ⟨hc, rfl, rfl⟩

theorem sortEntries_sorted (entries : List MapEntry) :
    (sortEntries entries).Pairwise entryLE :=
  List.sorted_insertionSort entryLE entries

theorem sortEntries_perm (entries : List MapEntry) :
    (sortEntries entries).Perm entries :=
  List.perm_insertionSort entryLE entries

theorem Map.new_ok {name : String} {entries : List MapEntry} {m : Map}
    (h : Map.new name entries = .ok m) :
    m = ⟨name, sortEntries entries⟩ := by
  unfold Map.new at h
  split at h
  · injection h with h; exact h.symm
  · cases h

theorem Map.new_entries_sorted {name : String} {entries : List MapEntry} {m : Map}
    (h : Map.new name entries = .ok m) : m.entries.Pairwise entryLE := by
  rw [Map.new_ok h]
  exact sortEntries_sorted entries

/-- A value contained in no entry falls through the whole linear scan. -/
theorem applyEntries_of_not_contains {l : List MapEntry} {v : Int}
    (h : ∀ e ∈ l, ¬ e.contains v) : applyEntries l v = v := by
  induction l with
  | nil => rfl
  | cons e rest ih =>
    unfold applyEntries
    rw [if_neg (h e (.head _))]
    exact ih fun x hx => h x (.tail _ hx)

/-- A range overlapping no entry travels the whole loop untouched: every
entry is either skipped (wholly before) or stops the scan (wholly after). -/
theorem applyRangeGo_no_overlap {entries : List MapEntry} {range : SeedRange}
    (h : ∀ e ∈ entries, e.source_end ≤ range.start ∨ range.endPos ≤ e.source_start) :
    applyRangeGo entries range = some ([], range) := by
  induction entries with
  | nil => rfl
  | cons e rest ih =>
    unfold applyRangeGo
    rcases h e (.head _) with h1 | h1
    · rw [if_pos h1]
      exact ih fun x hx => h x (.tail _ hx)
    · by_cases h2 : e.source_end ≤ range.start
      · rw [if_pos h2]
        exact ih fun x hx => h x (.tail _ hx)
      · rw [if_neg h2, if_pos h1]

end Day05

namespace Day05

@[simp] theorem SeedRange.start_mk (s l : Int) : (SeedRange.mk s l).start = s := rfl

@[simp] theorem SeedRange.length_mk (s l : Int) : (SeedRange.mk s l).length = l := rfl

/-- Loop invariant: the fragments pushed inside the loop plus the remaining
range always account for exactly the input length. -/
theorem applyRangeGo_sum :
    ∀ (entries : List MapEntry) (range : SeedRange) (out : List SeedRange) (rem : SeedRange),
    applyRangeGo entries range = some (out, rem) →
    (out.map SeedRange.length).sum + rem.length = range.length := by
  intro entries
  induction entries with
  | nil =>
    intro range out rem h
    unfold applyRangeGo at h
    injection h with h
    injection h with h1 h2
    subst h1; subst h2
    simp
  | cons e rest ih =>
    intro range out rem h
    unfold applyRangeGo at h
    split at h
    · exact ih range out rem h
    · split at h
      · injection h with h
        injection h with h1 h2
        subst h1; subst h2
        simp
      · split at h
        · -- the range is split once at e.source_start
          split at h
          · cases h
          · rename_i segment range1 hsplit1
            obtain ⟨hc1, ha1, hb1⟩ := SeedRange.split_at_eq_some_iff.mp hsplit1
            split at h
            · split at h
              · cases h
              · rename_i seg2 range2 hsplit2
                obtain ⟨hc2, ha2, hb2⟩ := SeedRange.split_at_eq_some_iff.mp hsplit2
                split at h
                · cases h
                · rename_i out2 rem2 hrec
                  injection h with h
                  injection h with h1 h2
                  subst h1; subst h2
                  have hsum := ih range2 out2 rem2 hrec
                  subst ha1; subst hb1; subst ha2; subst hb2
                  simp only [List.map_cons, List.sum_cons, SeedRange.shift_length,
                    SeedRange.length_mk] at *
                  omega
            · injection h with h
              injection h with h1 h2
              subst h1; subst h2
              subst ha1; subst hb1
              simp only [List.map_cons, List.map_nil, List.sum_cons, List.sum_nil,
                SeedRange.shift_length, SeedRange.length_mk]
              omega
        · -- no initial split: the entry already covers range.start
          split at h
          · split at h
            · cases h
            · rename_i seg2 range2 hsplit2
              obtain ⟨hc2, ha2, hb2⟩ := SeedRange.split_at_eq_some_iff.mp hsplit2
              split at h
              · cases h
              · rename_i out2 rem2 hrec
                injection h with h
                injection h with h1 h2
                subst h1; subst h2
                have hsum := ih range2 out2 rem2 hrec
                subst ha2; subst hb2
                simp only [List.map_cons, List.sum_cons, SeedRange.shift_length,
                  SeedRange.length_mk] at *
                omega
          · injection h with h
            injection h with h1 h2
            subst h1; subst h2
            simp only [List.map_cons, List.map_nil, List.sum_cons, List.sum_nil,
              SeedRange.shift_length, SeedRange.length_mk]
            omega

end Day05

namespace Day05

/-- Loop invariant: a remaining range of non-negative length stays
non-negative (a successful split always leaves a positive right part). -/
theorem applyRangeGo_nonneg :
    ∀ (entries : List MapEntry) (range : SeedRange) (out : List SeedRange) (rem : SeedRange),
    applyRangeGo entries range = some (out, rem) → 0 ≤ range.length → 0 ≤ rem.length := by
  intro entries
  induction entries with
  | nil =>
    intro range out rem h hr
    unfold applyRangeGo at h
    injection h with h
    injection h with h1 h2
    subst h1; subst h2
    exact hr
  | cons e rest ih =>
    intro range out rem h hr
    unfold applyRangeGo at h
    split at h
    · exact ih range out rem h hr
    · split at h
      · injection h with h
        injection h with h1 h2
        subst h1; subst h2
        exact hr
      · split at h
        · split at h
          · cases h
          · rename_i segment range1 hsplit1
            obtain ⟨hc1, ha1, hb1⟩ := SeedRange.split_at_eq_some_iff.mp hsplit1
            split at h
            · split at h
              · cases h
              · rename_i seg2 range2 hsplit2
                obtain ⟨hc2, ha2, hb2⟩ := SeedRange.split_at_eq_some_iff.mp hsplit2
                split at h
                · cases h
                · rename_i out2 rem2 hrec
                  injection h with h
                  injection h with h1 h2
                  subst h1; subst h2
                  refine ih range2 out2 rem2 hrec ?_
                  obtain ⟨hca, hcb⟩ := hc2
                  subst hb2
                  simp only [SeedRange.length_mk]
                  omega
            · injection h with h
              injection h with h1 h2
              subst h1; subst h2
              simp
        · split at h
          · split at h
            · cases h
            · rename_i seg2 range2 hsplit2
              obtain ⟨hc2, ha2, hb2⟩ := SeedRange.split_at_eq_some_iff.mp hsplit2
              split at h
              · cases h
              · rename_i out2 rem2 hrec
                injection h with h
                injection h with h1 h2
                subst h1; subst h2
                refine ih range2 out2 rem2 hrec ?_
                obtain ⟨hca, hcb⟩ := hc2
                subst hb2
                simp only [SeedRange.length_mk]
                omega
          · injection h with h
            injection h with h1 h2
            subst h1; subst h2
            simp

/-- Totality of the loop under the data-model invariant that entries have
non-negative length: neither unwrap can panic. -/
theorem applyRangeGo_isSome :
    ∀ (entries : List MapEntry), (∀ e ∈ entries, 0 ≤ e.range_length) →
    ∀ (range : SeedRange), (applyRangeGo entries range).isSome = true := by
  intro entries
  induction entries with
  | nil => intro _ range; rfl
  | cons e rest ih =>
    intro hpos range
    have hrest : ∀ x ∈ rest, 0 ≤ x.range_length := fun x hx => hpos x (.tail _ hx)
    have he : 0 ≤ e.range_length := hpos e (.head _)
    unfold applyRangeGo
    split
    · exact ih hrest range
    · rename_i h1
      split
      · rfl
      · rename_i h2
        split
        · rename_i h3
          have hc1 : range.contains e.source_start := by
            constructor
            · exact le_of_lt h3
            · simp only [SeedRange.endPos] at h2; omega
          split
          · rename_i hsplit1
            rw [SeedRange.split_at_eq_none_iff] at hsplit1
            exact absurd hc1 hsplit1
          · rename_i segment range1 hsplit1
            obtain ⟨-, ha1, hb1⟩ := SeedRange.split_at_eq_some_iff.mp hsplit1
            split
            · rename_i h4
              have hc2 : range1.contains e.source_end := by
                constructor
                · subst hb1
                  simp only [SeedRange.start_mk, MapEntry.source_end]
                  omega
                · simp only [SeedRange.endPos] at h4; omega
              split
              · rename_i hsplit2
                rw [SeedRange.split_at_eq_none_iff] at hsplit2
                exact absurd hc2 hsplit2
              · rename_i seg2 range2 hsplit2
                split
                · rename_i hrec
                  have hS := ih hrest range2
                  rw [hrec] at hS
                  simp at hS
                · rfl
            · rfl
        · rename_i h3
          split
          · rename_i h4
            have hc2 : range.contains e.source_end := by
              constructor
              · omega
              · simp only [SeedRange.endPos] at h4; omega
            split
            · rename_i hsplit2
              rw [SeedRange.split_at_eq_none_iff] at hsplit2
              exact absurd hc2 hsplit2
            · rename_i seg2 range2 hsplit2
              split
              · rename_i hrec
                have hS := ih hrest range2
                rw [hrec] at hS
                simp at hS
              · rfl
          · rfl

/-- Totality restated with an explicit witness. -/
theorem applyRangeGo_total (entries : List MapEntry)
    (hpos : ∀ e ∈ entries, 0 ≤ e.range_length) (range : SeedRange) :
    ∃ pr, applyRangeGo entries range = some pr :=
  Option.isSome_iff_exists.mp (applyRangeGo_isSome entries hpos range)

end Day05

namespace Day05

/-- Loop invariant: with positive-length entries and a positive-length
input, every fragment pushed inside the loop has positive length. -/
theorem applyRangeGo_pos :
    ∀ (entries : List MapEntry), (∀ e ∈ entries, 0 < e.range_length) →
    ∀ (range : SeedRange) (out : List SeedRange) (rem : SeedRange),
    applyRangeGo entries range = some (out, rem) → 0 < range.length →
    ∀ f ∈ out, 0 < f.length := by
  intro entries
  induction entries with
  | nil =>
    intro _ range out rem h _
    unfold applyRangeGo at h
    injection h with h
    injection h with h1 h2
    subst h1; subst h2
    intro f hf
    cases hf
  | cons e rest ih =>
    intro hpos range out rem h hr
    have hrest : ∀ x ∈ rest, 0 < x.range_length := fun x hx => hpos x (.tail _ hx)
    have he : 0 < e.range_length := hpos e (.head _)
    unfold applyRangeGo at h
    split at h
    · exact ih hrest range out rem h hr
    · rename_i h1
      split at h
      · injection h with h
        injection h with h1 h2
        subst h1; subst h2
        intro f hf
        cases hf
      · rename_i h2
        split at h
        · rename_i h3
          split at h
          · cases h
          · rename_i segment range1 hsplit1
            obtain ⟨hc1, ha1, hb1⟩ := SeedRange.split_at_eq_some_iff.mp hsplit1
            obtain ⟨hc1a, hc1b⟩ := hc1
            split at h
            · rename_i h4
              split at h
              · cases h
              · rename_i seg2 range2 hsplit2
                obtain ⟨hc2, ha2, hb2⟩ := SeedRange.split_at_eq_some_iff.mp hsplit2
                obtain ⟨hc2a, hc2b⟩ := hc2
                split at h
                · cases h
                · rename_i out2 rem2 hrec
                  injection h with h
                  injection h with h1 h2
                  subst h1; subst h2
                  have hout2 : ∀ f ∈ out2, 0 < f.length := by
                    refine ih hrest range2 out2 rem2 hrec ?_
                    subst hb2
                    simp only [SeedRange.length_mk]
                    omega
                  intro f hf
                  simp only [List.mem_cons] at hf
                  rcases hf with rfl | rfl | hf
                  · subst ha1
                    simp only [SeedRange.length_mk]
                    omega
                  · rw [SeedRange.shift_length]
                    subst ha2; subst hb1
                    simp only [SeedRange.length_mk, SeedRange.start_mk,
                      MapEntry.source_end] at *
                    omega
                  · exact hout2 f hf
            · rename_i h4
              injection h with h
              injection h with h1 h2
              subst h1; subst h2
              intro f hf
              simp only [List.mem_cons, List.not_mem_nil, or_false] at hf
              rcases hf with rfl | rfl
              · subst ha1
                simp only [SeedRange.length_mk]
                omega
              · rw [SeedRange.shift_length]
                subst hb1
                simp only [SeedRange.length_mk]
                omega
        · rename_i h3
          split at h
          · rename_i h4
            split at h
            · cases h
            · rename_i seg2 range2 hsplit2
              obtain ⟨hc2, ha2, hb2⟩ := SeedRange.split_at_eq_some_iff.mp hsplit2
              obtain ⟨hc2a, hc2b⟩ := hc2
              split at h
              · cases h
              · rename_i out2 rem2 hrec
                injection h with h
                injection h with h1 h2
                subst h1; subst h2
                have hout2 : ∀ f ∈ out2, 0 < f.length := by
                  refine ih hrest range2 out2 rem2 hrec ?_
                  subst hb2
                  simp only [SeedRange.length_mk]
                  omega
                intro f hf
                simp only [List.mem_cons] at hf
                rcases hf with rfl | hf
                · rw [SeedRange.shift_length]
                  subst ha2
                  simp only [SeedRange.length_mk]
                  omega
                · exact hout2 f hf
          · rename_i h4
            injection h with h
            injection h with h1 h2
            subst h1; subst h2
            intro f hf
            simp only [List.mem_cons, List.not_mem_nil, or_false] at hf
            subst hf
            rw [SeedRange.shift_length]
            exact hr

end Day05

namespace Day05

theorem SeedRange.range_contains_unfold {r : SeedRange} {v : Int} :
    r.contains v ↔ r.start ≤ v ∧ v < r.start + r.length := Iff.rfl

theorem MapEntry.entry_contains_unfold {e : MapEntry} {v : Int} :
    e.contains v ↔ e.source_start ≤ v ∧ v < e.source_start + e.range_length := Iff.rfl

theorem applyEntries_cons_pos {e : MapEntry} {rest : List MapEntry} {v : Int}
    (hc : e.contains v) : applyEntries (e :: rest) v = v + e.delta := by
  unfold applyEntries MapEntry.apply
  rw [if_pos hc, if_pos hc]

theorem applyEntries_cons_neg {e : MapEntry} {rest : List MapEntry} {v : Int}
    (hc : ¬ e.contains v) : applyEntries (e :: rest) v = applyEntries rest v := by
  show (if e.contains v then e.apply v else applyEntries rest v) = applyEntries rest v
  rw [if_neg hc]

/-- Loop invariant behind scalar/range consistency: a value of the current
remaining range either lands (already mapped) in one of the pushed
fragments, or survives in the final remaining range with the whole scan
acting as the identity on it.  Sortedness is what lets the loop stop early:
once an entry starts past the remaining range, no later entry can contain
the value either. -/
theorem applyRangeGo_consistent :
    ∀ (entries : List MapEntry), entries.Pairwise entryLE →
    ∀ (range : SeedRange) (out : List SeedRange) (rem : SeedRange) (v : Int),
    applyRangeGo entries range = some (out, rem) → range.contains v →
    (∃ f ∈ out, f.contains (applyEntries entries v)) ∨
    (rem.contains v ∧ applyEntries entries v = v) := by
  intro entries
  induction entries with
  | nil =>
    intro _ range out rem v h hv
    unfold applyRangeGo at h
    injection h with h
    injection h with h1 h2
    subst h1; subst h2
    exact Or.inr ⟨hv, rfl⟩
  | cons e rest ih =>
    intro hsorted range out rem v h hv
    obtain ⟨hhead, hrest⟩ := List.pairwise_cons.mp hsorted
    obtain ⟨hv1, hv2⟩ := hv
    unfold applyRangeGo at h
    split at h
    · -- skip: the entry lies wholly before the remaining range
      rename_i h1
      have hnc : ¬ e.contains v := by
        simp only [MapEntry.entry_contains_unfold]
        simp only [MapEntry.source_end] at h1
        omega
      rw [applyEntries_cons_neg hnc]
      exact ih hrest range out rem v h ⟨hv1, hv2⟩
    · rename_i h1
      split at h
      · -- stop: the entry (and by sortedness all later ones) lies wholly after
        rename_i h2
        injection h with h
        injection h with hout hrem
        subst hout; subst hrem
        refine Or.inr ⟨⟨hv1, hv2⟩, applyEntries_of_not_contains ?_⟩
        intro x hx
        simp only [SeedRange.endPos] at h2
        rcases List.mem_cons.mp hx with rfl | hx
        · simp only [MapEntry.entry_contains_unfold]
          omega
        · have hle : e.source_start ≤ x.source_start := hhead x hx
          simp only [MapEntry.entry_contains_unfold]
          omega
      · rename_i h2
        split at h
        · -- an unmapped fragment is split off before the entry
          rename_i h3
          split at h
          · cases h
          · rename_i segment range1 hsplit1
            obtain ⟨hc1, ha1, hb1⟩ := SeedRange.split_at_eq_some_iff.mp hsplit1
            subst ha1; subst hb1
            split at h
            · rename_i h4
              split at h
              · cases h
              · rename_i seg2 range2 hsplit2
                obtain ⟨hc2, ha2, hb2⟩ := SeedRange.split_at_eq_some_iff.mp hsplit2
                subst ha2; subst hb2
                split at h
                · cases h
                · rename_i out2 rem2 hrec
                  injection h with h
                  injection h with hout hrem
                  subst hout; subst hrem
                  by_cases hva : v < e.source_start
                  · -- v lies in the unmapped left fragment
                    have hnc : ∀ x ∈ e :: rest, ¬ x.contains v := by
                      intro x hx
                      rcases List.mem_cons.mp hx with rfl | hx
                      · simp only [MapEntry.entry_contains_unfold]; omega
                      · have hle : e.source_start ≤ x.source_start := hhead x hx
                        simp only [MapEntry.entry_contains_unfold]; omega
                    rw [applyEntries_of_not_contains hnc]
                    refine Or.inl ⟨_, List.mem_cons_self .., ?_⟩
                    simp only [SeedRange.range_contains_unfold, SeedRange.start_mk,
                      SeedRange.length_mk]
                    omega
                  · by_cases hvb : v < e.source_end
                    · -- v lies in the mapped middle fragment
                      have hcv : e.contains v := by
                        simp only [MapEntry.entry_contains_unfold]
                        simp only [MapEntry.source_end] at hvb
                        omega
                      rw [applyEntries_cons_pos hcv]
                      refine Or.inl ⟨_, List.mem_cons_of_mem _ (List.mem_cons_self ..), ?_⟩
                      simp only [SeedRange.range_contains_unfold, SeedRange.shift,
                        SeedRange.start_mk, SeedRange.length_mk, MapEntry.source_end]
                      simp only [MapEntry.source_end] at hvb
                      omega
                    · -- v lies past the entry: recurse on the right fragment
                      have hnc : ¬ e.contains v := by
                        simp only [MapEntry.entry_contains_unfold]
                        simp only [MapEntry.source_end] at hvb
                        omega
                      rw [applyEntries_cons_neg hnc]
                      have hvr2 : SeedRange.contains ⟨e.source_end,
                          e.source_start + (range.start + range.length - e.source_start)
                            - e.source_end⟩ v := by
                        simp only [SeedRange.range_contains_unfold, SeedRange.start_mk,
                          SeedRange.length_mk]
                        omega
                      rcases ih hrest _ out2 rem2 v hrec hvr2 with ⟨f, hf, hfc⟩ | ⟨hrm, hid⟩
                      · exact Or.inl ⟨f,
                          List.mem_cons_of_mem _ (List.mem_cons_of_mem _ hf), hfc⟩
                      · exact Or.inr ⟨hrm, hid⟩
            · rename_i h4
              injection h with h
              injection h with hout hrem
              subst hout; subst hrem
              by_cases hva : v < e.source_start
              · have hnc : ∀ x ∈ e :: rest, ¬ x.contains v := by
                  intro x hx
                  rcases List.mem_cons.mp hx with rfl | hx
                  · simp only [MapEntry.entry_contains_unfold]; omega
                  · have hle : e.source_start ≤ x.source_start := hhead x hx
                    simp only [MapEntry.entry_contains_unfold]; omega
                rw [applyEntries_of_not_contains hnc]
                refine Or.inl ⟨_, List.mem_cons_self .., ?_⟩
                simp only [SeedRange.range_contains_unfold, SeedRange.start_mk,
                  SeedRange.length_mk]
                omega
              · -- the entry covers the whole tail of the remaining range
                have hcv : e.contains v := by
                  simp only [SeedRange.endPos, SeedRange.start_mk,
                    SeedRange.length_mk] at h4
                  simp only [MapEntry.entry_contains_unfold]
                  simp only [MapEntry.source_end] at h4
                  omega
                rw [applyEntries_cons_pos hcv]
                refine Or.inl ⟨_, List.mem_cons_of_mem _ (List.mem_cons_self ..), ?_⟩
                simp only [SeedRange.range_contains_unfold, SeedRange.shift,
                  SeedRange.start_mk, SeedRange.length_mk]
                omega
        · -- the entry already covers the start of the remaining range
          rename_i h3
          split at h
          · rename_i h4
            split at h
            · cases h
            · rename_i seg2 range2 hsplit2
              obtain ⟨hc2, ha2, hb2⟩ := SeedRange.split_at_eq_some_iff.mp hsplit2
              subst ha2; subst hb2
              split at h
              · cases h
              · rename_i out2 rem2 hrec
                injection h with h
                injection h with hout hrem
                subst hout; subst hrem
                by_cases hvb : v < e.source_end
                · have hcv : e.contains v := by
                    simp only [MapEntry.entry_contains_unfold]
                    simp only [MapEntry.source_end] at hvb
                    omega
                  rw [applyEntries_cons_pos hcv]
                  refine Or.inl ⟨_, List.mem_cons_self .., ?_⟩
                  simp only [SeedRange.range_contains_unfold, SeedRange.shift,
                    SeedRange.start_mk, SeedRange.length_mk, MapEntry.source_end]
                  simp only [MapEntry.source_end] at hvb
                  omega
                · have hnc : ¬ e.contains v := by
                    simp only [MapEntry.entry_contains_unfold]
                    simp only [MapEntry.source_end] at hvb
                    omega
                  rw [applyEntries_cons_neg hnc]
                  have hvr2 : SeedRange.contains ⟨e.source_end,
                      range.start + range.length - e.source_end⟩ v := by
                    simp only [SeedRange.range_contains_unfold, SeedRange.start_mk,
                      SeedRange.length_mk]
                    omega
                  rcases ih hrest _ out2 rem2 v hrec hvr2 with ⟨f, hf, hfc⟩ | ⟨hrm, hid⟩
                  · exact Or.inl ⟨f, List.mem_cons_of_mem _ hf, hfc⟩
                  · exact Or.inr ⟨hrm, hid⟩
          · rename_i h4
            injection h with h
            injection h with hout hrem
            subst hout; subst hrem
            have hcv : e.contains v := by
              simp only [SeedRange.endPos] at h4
              simp only [MapEntry.entry_contains_unfold]
              simp only [MapEntry.source_end] at h4
              omega
            rw [applyEntries_cons_pos hcv]
            refine Or.inl ⟨_, List.mem_cons_self .., ?_⟩
            simp only [SeedRange.range_contains_unfold, SeedRange.shift,
              SeedRange.start_mk, SeedRange.length_mk]
            omega

end Day05

namespace Day05

/-- An adjacent pair of the (sorted) entry list that overlaps and disagrees
on the mapped output at the shared boundary input. -/
def AdjBad (l : List MapEntry) (k : Nat) : Prop :=
  ∃ left right, l[k]? = some left ∧ l[k+1]? = some right ∧
    right.source_start < left.source_end ∧
    left.apply right.source_start ≠ right.apply right.source_start

theorem adjBad_cons_succ {a : MapEntry} {l : List MapEntry} {k : Nat} :
    AdjBad (a :: l) (k + 1) ↔ AdjBad l k := by
  unfold AdjBad
  simp only [List.getElem?_cons_succ]

theorem adjBad_zero {a b : MapEntry} {l : List MapEntry} :
    AdjBad (a :: b :: l) 0 ↔
      (b.source_start < a.source_end ∧
        a.apply b.source_start ≠ b.apply b.source_start) := by
  unfold AdjBad
  simp only [List.getElem?_cons_zero, List.getElem?_cons_succ, Option.some.injEq]
  constructor
  · rintro ⟨x, y, hx, hy, ho, hd⟩
    subst hx; subst hy
    exact ⟨ho, hd⟩
  · rintro ⟨ho, hd⟩
    exact ⟨a, b, by simp, by simp, ho, hd⟩

/-- Full behaviour of the adjacent-pair scan: it aborts with an error
exactly when some adjacent pair overlaps and disagrees at the boundary, and
the error it reports names the boundary input and the two outputs of such
a pair. -/
theorem checkPairs_characterization :
    ∀ (l : List MapEntry) (name : String),
    ((∃ e, checkPairs name l = .error e) ↔ ∃ k, AdjBad l k) ∧
    (∀ e, checkPairs name l = .error e →
      ∃ k left right, l[k]? = some left ∧ l[k+1]? = some right ∧
        right.source_start < left.source_end ∧
        left.apply right.source_start ≠ right.apply right.source_start ∧
        e = .Overlaps name right.source_start (left.apply right.source_start)
              (right.apply right.source_start)) := by
  intro l
  induction l with
  | nil =>
    intro name
    constructor
    · constructor
      · rintro ⟨e, he⟩; cases he
      · rintro ⟨k, x, y, hx, -, -, -⟩; simp at hx
    · intro e he; cases he
  | cons a tail ih =>
    intro name
    cases tail with
    | nil =>
      constructor
      · constructor
        · rintro ⟨e, he⟩; cases he
        · rintro ⟨k, x, y, hx, hy, -, -⟩
          rcases k with - | k <;> simp at hx hy
      · intro e he; cases he
    | cons b rest =>
      have hstep : checkPairs name (a :: b :: rest) =
          if b.source_start < a.source_end then
            if a.apply b.source_start = b.apply b.source_start then
              checkPairs name (b :: rest)
            else
              .error (.Overlaps name b.source_start
                (a.apply b.source_start) (b.apply b.source_start))
          else
            checkPairs name (b :: rest) := rfl
      obtain ⟨ih1, ih2⟩ := ih name
      by_cases ho : b.source_start < a.source_end
      · by_cases hagree : a.apply b.source_start = b.apply b.source_start
        · rw [hstep, if_pos ho, if_pos hagree]
          constructor
          · rw [ih1]
            constructor
            · rintro ⟨k, hbad⟩
              exact ⟨k + 1, adjBad_cons_succ.mpr hbad⟩
            · rintro ⟨k, hbad⟩
              rcases k with - | k
              · rw [adjBad_zero] at hbad
                exact absurd hagree hbad.2
              · exact ⟨k, adjBad_cons_succ.mp hbad⟩
          · intro e he
            obtain ⟨k, x, y, hx, hy, hko, hkd, hke⟩ := ih2 e he
            exact ⟨k + 1, x, y, by simpa using hx, by simpa using hy, hko, hkd, hke⟩
        · rw [hstep, if_pos ho, if_neg hagree]
          constructor
          · constructor
            · rintro -
              exact ⟨0, adjBad_zero.mpr ⟨ho, hagree⟩⟩
            · rintro -
              exact ⟨_, rfl⟩
          · intro e he
            injection he with he
            exact ⟨0, a, b, by simp, by simp, ho, hagree, he.symm⟩
      · rw [hstep, if_neg ho]
        constructor
        · rw [ih1]
          constructor
          · rintro ⟨k, hbad⟩
            exact ⟨k + 1, adjBad_cons_succ.mpr hbad⟩
          · rintro ⟨k, hbad⟩
            rcases k with - | k
            · rw [adjBad_zero] at hbad
              exact absurd hbad.1 ho
            · exact ⟨k, adjBad_cons_succ.mp hbad⟩
        · intro e he
          obtain ⟨k, x, y, hx, hy, hko, hkd, hke⟩ := ih2 e he
          exact ⟨k + 1, x, y, by simpa using hx, by simpa using hy, hko, hkd, hke⟩

/-- Map::new surfaces exactly the errors of the adjacent-pair scan over the
sorted entries. -/
theorem Map.new_error_iff {name : String} {entries : List MapEntry} {e : Error} :
    Map.new name entries = .error e ↔
      checkPairs name (sortEntries entries) = .error e := by
  unfold Map.new
  split
  · rename_i h
    constructor
    · rintro he; cases he
    · intro he; rw [h] at he; cases he
  · rename_i e1 h
    rw [h]
    constructor
    · intro he; injection he with he; rw [he]
    · intro he; injection he with he; rw [he]

end Day05

namespace Day05

/-- Claim C8: split_at returns Some pair precisely when the interval
contains the split point, and on success the first part keeps the start,
the second starts at the split point, the parts are adjacent and their
lengths sum to the original length.  Splitting at p = I.start (contained
whenever the interval is non-empty) therefore succeeds with a zero-length
first part; the witness exercises exactly that point. -/
theorem split_at_characterization (I : SeedRange) (p : Int) :
    ((∃ pr, I.split_at p = some pr) ↔ I.contains p) ∧
    (∀ a b, I.split_at p = some (a, b) →
      a.start = I.start ∧ a.length = p - I.start ∧ b.start = p ∧
      a.start + a.length = b.start ∧ a.length + b.length = I.length) := by
  constructor
  · constructor
    · rintro ⟨⟨a, b⟩, h⟩
      exact (SeedRange.split_at_eq_some_iff.mp h).1
    · intro hc
      exact ⟨_, SeedRange.split_at_of_contains hc⟩
  · intro a b h
    obtain ⟨hc, ha, hb⟩ := SeedRange.split_at_eq_some_iff.mp h
    subst ha; subst hb
    refine ⟨rfl, rfl, rfl, ?_, ?_⟩ <;>
      simp only [SeedRange.start_mk, SeedRange.length_mk] <;> omega

/-- Witness for C8 at the boundary point p = I.start of I = [2, 6). -/
theorem split_at_characterization_witness :
    (SeedRange.mk 2 4).split_at 2 = some (⟨2, 0⟩, ⟨2, 4⟩) ∧
    ((SeedRange.mk 2 0).start = (SeedRange.mk 2 4).start ∧
      (SeedRange.mk 2 0).length = 2 - (SeedRange.mk 2 4).start ∧
      (SeedRange.mk 2 4).start = 2 ∧
      (SeedRange.mk 2 0).start + (SeedRange.mk 2 0).length = (SeedRange.mk 2 4).start ∧
      (SeedRange.mk 2 0).length + (SeedRange.mk 2 4).length = (SeedRange.mk 2 4).length) :=
  ⟨by decide, (split_at_characterization ⟨2, 4⟩ 2).2 ⟨2, 0⟩ ⟨2, 4⟩ (by decide)⟩

/-- Claim C5: on a validated Stage the scalar apply returns value + delta
of the first entry, in sorted order, whose half-open source range contains
the value, and the value unchanged when no entry contains it.  Totality is
inherent: Map.apply returns an integer, with no failure path in its type. -/
theorem apply_first_sorted_entry (name : String) (entries : List MapEntry) (m : Map)
    (hm : Map.new name entries = .ok m) (v : Int) :
    m.entries = sortEntries entries ∧
    m.apply v = (match (sortEntries entries).find? (fun e => decide (e.contains v)) with
                 | some e => v + e.delta
                 | none => v) := by
  have hments : m.entries = sortEntries entries := by rw [Map.new_ok hm]
  refine ⟨hments, ?_⟩
  show applyEntries m.entries v = _
  rw [hments]
  generalize sortEntries entries = l
  induction l with
  | nil => rfl
  | cons e rest ih =>
    by_cases hc : e.contains v
    · rw [applyEntries_cons_pos hc, List.find?_cons_of_pos _ (by simpa using hc)]
    · rw [applyEntries_cons_neg hc, ih, List.find?_cons_of_neg _ (by simpa using hc)]

/-- Witness for C5 on the seed-to-soil example stage at v = 79. -/
theorem apply_first_sorted_entry_witness :
    (Map.mk "w5" [⟨52, 50, 48⟩, ⟨50, 98, 2⟩]).entries =
      sortEntries [⟨50, 98, 2⟩, ⟨52, 50, 48⟩] ∧
    (Map.mk "w5" [⟨52, 50, 48⟩, ⟨50, 98, 2⟩]).apply 79 =
      (match (sortEntries [⟨50, 98, 2⟩, ⟨52, 50, 48⟩]).find?
          (fun e => decide (e.contains 79)) with
       | some e => 79 + e.delta
       | none => 79) :=
  apply_first_sorted_entry "w5" [⟨50, 98, 2⟩, ⟨52, 50, 48⟩] _ rfl 79

/-- Claim C9: part1 surfaces NoSolution exactly when the seed collection
(and hence the collection of final scalar results) is empty, part2 exactly
when the interval collection is empty at the final minimum-start
reduction; otherwise each mode produces a single minimum and no error. -/
theorem no_solution_exactly_on_empty (seeds : List Int) (maps : List Map)
    (ranges : List SeedRange) (final : List SeedRange)
    (hfin : pipelineRanges maps ranges = some final) :
    ((part1Core seeds maps = .error .NoSolution) ↔ seeds = []) ∧
    (seeds ≠ [] → ∃ v, part1Core seeds maps = .ok v) ∧
    ((part2Core ranges maps = some (.error .NoSolution)) ↔ final = []) ∧
    (final ≠ [] → ∃ v, part2Core ranges maps = some (.ok v)) := by
  have hp2 : part2Core ranges maps =
      some (match listMin (final.map SeedRange.start) with
            | some v => .ok v
            | none => .error .NoSolution) := by
    unfold part2Core
    rw [hfin]
  refine ⟨?_, ?_, ?_, ?_⟩
  · cases seeds with
    | nil => simp [part1Core, listMin]
    | cons s ss => simp [part1Core, listMin]
  · intro hne
    cases seeds with
    | nil => exact absurd rfl hne
    | cons s ss => exact ⟨_, rfl⟩
  · rw [hp2]
    cases final with
    | nil => simp [listMin]
    | cons f fs => simp [listMin]
  · intro hne
    rw [hp2]
    cases final with
    | nil => exact absurd rfl hne
    | cons f fs => exact ⟨_, rfl⟩

/-- Witness for C9 with seeds [3], no stages, and interval collection
[[5, 6)] surviving the (empty) pipeline. -/
theorem no_solution_exactly_on_empty_witness :
    ((part1Core [3] [] = .error .NoSolution) ↔ ([3] : List Int) = []) ∧
    (([3] : List Int) ≠ [] → ∃ v, part1Core [3] [] = .ok v) ∧
    ((part2Core [⟨5, 1⟩] [] = some (.error .NoSolution)) ↔
      ([(⟨5, 1⟩ : SeedRange)]) = []) ∧
    (([(⟨5, 1⟩ : SeedRange)]) ≠ [] → ∃ v, part2Core [⟨5, 1⟩] [] = some (.ok v)) :=
  no_solution_exactly_on_empty [3] [] [⟨5, 1⟩] [⟨5, 1⟩] rfl

/-- Claim C1 (failing-input evaluation): on the validated single-entry
stage "fail" and the negative-length input range at start 0 with length
-1, apply_range returns an empty fragment list whose lengths sum to 0,
not to the input length -1: the release build violates the function's own
debug_assert (which fires in debug builds) and the conservation law. -/
theorem conservation_debug_assert_violation :
    Map.new "fail" [⟨52, 50, 48⟩] = .ok ⟨"fail", [⟨52, 50, 48⟩]⟩ ∧
    Map.apply_range ⟨"fail", [⟨52, 50, 48⟩]⟩ ⟨0, -1⟩ = some [] ∧
    (([] : List SeedRange).map SeedRange.length).sum ≠ (SeedRange.mk 0 (-1)).length := by
  refine ⟨rfl, rfl, ?_⟩
  decide

/-- Claim C4 (failing-input evaluation): on the validated single-entry
stage "under" (the stage of the repository's own apply_range_under unit
test) and the zero-length input range at start 0, apply_range returns an
empty vector, contradicting its doc comment "This function will never
produce an empty output vector." -/
theorem apply_range_empty_output_bug :
    Map.new "under" [⟨4, 2, 2⟩] = .ok ⟨"under", [⟨4, 2, 2⟩]⟩ ∧
    Map.apply_range ⟨"under", [⟨4, 2, 2⟩]⟩ ⟨0, 0⟩ = some [] :=
  ⟨rfl, rfl⟩

end Day05

namespace Day05

/-- Claim C2: for a validated Stage (entries obeying the data-model
invariant of positive length), an input interval R and a value v contained
in R, apply_range(R) returns fragments one of which holds the mapped
counterpart of v, and that counterpart is exactly the scalar apply(v). -/
theorem apply_range_consistent_with_apply (name : String) (entries : List MapEntry)
    (m : Map) (R : SeedRange) (v : Int)
    (hm : Map.new name entries = .ok m)
    (hlen : ∀ e ∈ entries, 0 < e.range_length)
    (hv : R.contains v) :
    ∃ out, m.apply_range R = some out ∧ ∃ f ∈ out, f.contains (m.apply v) := by
  have hments : m.entries = sortEntries entries := by rw [Map.new_ok hm]
  have hsorted : m.entries.Pairwise entryLE := Map.new_entries_sorted hm
  have hlen2 : ∀ e ∈ m.entries, 0 ≤ e.range_length := by
    intro e he
    rw [hments] at he
    exact le_of_lt (hlen e ((sortEntries_perm entries).mem_iff.mp he))
  obtain ⟨⟨out, rem⟩, hgo⟩ := applyRangeGo_total m.entries hlen2 R
  have happly : m.apply_range R =
      some (if 0 < rem.length then out ++ [rem] else out) := by
    unfold Map.apply_range
    rw [hgo]
  rcases applyRangeGo_consistent m.entries hsorted R out rem v hgo hv with
    ⟨f, hf, hfc⟩ | ⟨hrm, hid⟩
  · refine ⟨_, happly, f, ?_, hfc⟩
    by_cases hr : 0 < rem.length
    · rw [if_pos hr]
      exact List.mem_append_left _ hf
    · rw [if_neg hr]
      exact hf
  · have hrpos : 0 < rem.length := by
      obtain ⟨h1, h2⟩ := hrm
      omega
    refine ⟨_, happly, rem, ?_, ?_⟩
    · rw [if_pos hrpos]
      exact List.mem_append_right _ (List.mem_cons_self ..)
    · show rem.contains (applyEntries m.entries v)
      rw [hid]
      exact hrm

/-- Witness for C2 on the seed-to-soil example stage, R = [79, 81), v = 79. -/
theorem apply_range_consistent_with_apply_witness :
    ∃ out, (Map.mk "w2" [⟨52, 50, 48⟩, ⟨50, 98, 2⟩]).apply_range ⟨79, 2⟩ = some out ∧
      ∃ f ∈ out, f.contains ((Map.mk "w2" [⟨52, 50, 48⟩, ⟨50, 98, 2⟩]).apply 79) :=
  apply_range_consistent_with_apply "w2" [⟨50, 98, 2⟩, ⟨52, 50, 48⟩] _ ⟨79, 2⟩ 79
    rfl (by decide) (by decide)

/-- Claim C3: Map::new fails exactly when some adjacent pair of the sorted
entry list overlaps and the two entries disagree on the mapped output at
the shared boundary input right.source_start; an overlapping pair that
agrees is accepted silently (covered by the only-if direction), and the
error carries the stage name, the offending input and both conflicting
outputs.  No error of this kind can arise after construction: Map.apply
returns a bare integer and Map.apply_range a fragment list, neither type
carrying an Error value. -/
theorem stage_ambiguity_validation (name : String) (entries : List MapEntry) :
    ((∃ e, Map.new name entries = .error e) ↔ ∃ k, AdjBad (sortEntries entries) k) ∧
    (∀ e, Map.new name entries = .error e →
      ∃ k left right, (sortEntries entries)[k]? = some left ∧
        (sortEntries entries)[k + 1]? = some right ∧
        right.source_start < left.source_end ∧
        left.apply right.source_start ≠ right.apply right.source_start ∧
        e = .Overlaps name right.source_start (left.apply right.source_start)
              (right.apply right.source_start)) := by
  obtain ⟨h1, h2⟩ := checkPairs_characterization (sortEntries entries) name
  constructor
  · rw [← h1]
    constructor
    · rintro ⟨e, he⟩
      exact ⟨e, Map.new_error_iff.mp he⟩
    · rintro ⟨e, he⟩
      exact ⟨e, Map.new_error_iff.mpr he⟩
  · intro e he
    exact h2 e (Map.new_error_iff.mp he)

/-- Witness for C3 on the spec's example 3: entries at sources [10, 15)
and [12, 17) disagree at the boundary input 12 (2 versus 100). -/
theorem stage_ambiguity_validation_witness :
    ∃ k left right, (sortEntries [⟨0, 10, 5⟩, ⟨100, 12, 5⟩])[k]? = some left ∧
      (sortEntries [⟨0, 10, 5⟩, ⟨100, 12, 5⟩])[k + 1]? = some right ∧
      right.source_start < left.source_end ∧
      left.apply right.source_start ≠ right.apply right.source_start ∧
      (Error.Overlaps "w3" 12 2 100) =
        .Overlaps "w3" right.source_start (left.apply right.source_start)
          (right.apply right.source_start) :=
  (stage_ambiguity_validation "w3" [⟨0, 10, 5⟩, ⟨100, 12, 5⟩]).2
    (.Overlaps "w3" 12 2 100) rfl

/-- Claim C6 (counterexample): two entries sharing source_start 0 but
disagreeing at it.  The stable sort keeps either input order, so the two
permutations of the same entry list produce distinct ambiguity errors
(outputs reported in opposite order): construction is not
permutation-invariant as claimed. -/
theorem stage_permutation_counterexample :
    ([⟨10, 0, 1⟩, ⟨20, 0, 1⟩] : List MapEntry).Perm [⟨20, 0, 1⟩, ⟨10, 0, 1⟩] ∧
    Map.new "amb" [⟨10, 0, 1⟩, ⟨20, 0, 1⟩] = .error (.Overlaps "amb" 0 10 20) ∧
    Map.new "amb" [⟨20, 0, 1⟩, ⟨10, 0, 1⟩] = .error (.Overlaps "amb" 0 20 10) ∧
    Map.new "amb" [⟨10, 0, 1⟩, ⟨20, 0, 1⟩] ≠ Map.new "amb" [⟨20, 0, 1⟩, ⟨10, 0, 1⟩] := by
  refine ⟨List.Perm.swap (⟨20, 0, 1⟩ : MapEntry) (⟨10, 0, 1⟩ : MapEntry) [], rfl, rfl, ?_⟩
  intro h
  have h1 : Map.new "amb" [⟨10, 0, 1⟩, ⟨20, 0, 1⟩] = .error (.Overlaps "amb" 0 10 20) := rfl
  have h2 : Map.new "amb" [⟨20, 0, 1⟩, ⟨10, 0, 1⟩] = .error (.Overlaps "amb" 0 20 10) := rfl
  rw [h1, h2] at h
  injection h with h
  injection h with hname hinput hout1 hout2
  exact absurd hout1 (by decide)

end Day05

namespace Day05

/-- Strict version of the sorting key order, used to state uniqueness of
the sorted order when no two entries share a source_start. -/
def entryLT (a b : MapEntry) : Prop := a.source_start < b.source_start

instance : IsAntisymm MapEntry entryLT :=
  ⟨fun a b h1 h2 => absurd (lt_trans h1 h2) (lt_irrefl _)⟩

/-- With pairwise distinct source_start keys the stable sort has a unique
possible output, so it is permutation-invariant. -/
theorem sortEntries_eq_of_perm {l1 l2 : List MapEntry} (hperm : l1.Perm l2)
    (hinj : l1.Pairwise fun a b => a.source_start ≠ b.source_start) :
    sortEntries l1 = sortEntries l2 := by
  have hp : (sortEntries l1).Perm (sortEntries l2) :=
    (sortEntries_perm l1).trans (hperm.trans (sortEntries_perm l2).symm)
  have hsymm : ∀ {x y : MapEntry},
      (fun a b : MapEntry => a.source_start ≠ b.source_start) x y →
      (fun a b : MapEntry => a.source_start ≠ b.source_start) y x :=
    fun h => fun he => h he.symm
  have hne1 : (sortEntries l1).Pairwise
      fun a b => a.source_start ≠ b.source_start :=
    (List.Perm.pairwise_iff hsymm (sortEntries_perm l1)).mpr hinj
  have hne2 : (sortEntries l2).Pairwise
      fun a b => a.source_start ≠ b.source_start :=
    (List.Perm.pairwise_iff hsymm hp).mp hne1
  have hs1 : (sortEntries l1).Pairwise entryLT :=
    ((sortEntries_sorted l1).and hne1).imp fun h => lt_of_le_of_ne h.1 h.2
  have hs2 : (sortEntries l2).Pairwise entryLT :=
    ((sortEntries_sorted l2).and hne2).imp fun h => lt_of_le_of_ne h.1 h.2
  exact List.eq_of_perm_of_sorted hp hs1 hs2

/-- Claim C6 (amended): for entry lists in which no two entries share a
source_start, constructing a Stage from any permutation yields an
identical result: the same sorted entries on success and the same
ambiguity error on failure. -/
theorem stage_construction_canonical (name : String) (l1 l2 : List MapEntry)
    (hperm : l1.Perm l2)
    (hinj : l1.Pairwise fun a b => a.source_start ≠ b.source_start) :
    Map.new name l1 = Map.new name l2 := by
  unfold Map.new
  rw [sortEntries_eq_of_perm hperm hinj]

/-- Witness for C6 on the two orderings of the seed-to-soil example
entries (distinct source_start keys 98 and 50). -/
theorem stage_construction_canonical_witness :
    Map.new "w6" [⟨50, 98, 2⟩, ⟨52, 50, 48⟩] = Map.new "w6" [⟨52, 50, 48⟩, ⟨50, 98, 2⟩] :=
  stage_construction_canonical "w6" _ _
    (List.Perm.swap (⟨52, 50, 48⟩ : MapEntry) (⟨50, 98, 2⟩ : MapEntry) [])
    (by decide)

/-- Claim C7 (counterexample): the zero-length input range [10, 10)
overlaps no entry of the validated stage "p7", yet apply_range returns the
empty list rather than the single fragment equal to the input. -/
theorem passthrough_range_counterexample :
    Map.new "p7" [⟨4, 2, 2⟩] = .ok ⟨"p7", [⟨4, 2, 2⟩]⟩ ∧
    ((MapEntry.mk 4 2 2).source_end ≤ (SeedRange.mk 10 0).start ∨
      (SeedRange.mk 10 0).endPos ≤ (MapEntry.mk 4 2 2).source_start) ∧
    Map.apply_range ⟨"p7", [⟨4, 2, 2⟩]⟩ ⟨10, 0⟩ = some [] ∧
    some ([] : List SeedRange) ≠ some [SeedRange.mk 10 0] := by
  refine ⟨rfl, Or.inl (by decide), rfl, ?_⟩
  simp

/-- Claim C7 (amended): on a validated Stage, a value contained in no
entry is returned unchanged by apply, and an input interval of strictly
positive length that overlaps no entry is returned by apply_range as the
single fragment equal to the input. -/
theorem passthrough_validated (name : String) (entries : List MapEntry) (m : Map)
    (hm : Map.new name entries = .ok m) :
    (∀ v : Int, (∀ e ∈ m.entries, ¬ e.contains v) → m.apply v = v) ∧
    (∀ R : SeedRange, 0 < R.length →
      (∀ e ∈ m.entries, e.source_end ≤ R.start ∨ R.endPos ≤ e.source_start) →
      m.apply_range R = some [R]) := by
  constructor
  · intro v hv
    exact applyEntries_of_not_contains hv
  · intro R hR hno
    unfold Map.apply_range
    rw [applyRangeGo_no_overlap hno]
    show some (if 0 < R.length then [] ++ [R] else []) = some [R]
    rw [if_pos hR]
    rfl

/-- Witness for C7 at v = 0 and R = [10, 13) on the stage mapping [2, 4). -/
theorem passthrough_validated_witness :
    (Map.mk "w7" [⟨4, 2, 2⟩]).apply 0 = 0 ∧
    (Map.mk "w7" [⟨4, 2, 2⟩]).apply_range ⟨10, 3⟩ = some [⟨10, 3⟩] :=
  ⟨(passthrough_validated "w7" [⟨4, 2, 2⟩] _ rfl).1 0 (by decide),
   (passthrough_validated "w7" [⟨4, 2, 2⟩] _ rfl).2 ⟨10, 3⟩ (by decide) (by decide)⟩

/-- Claim C10: on a validated Stage (entries obeying the data-model
invariant of positive length) and an input interval of strictly positive
length, every fragment returned by apply_range has strictly positive
length: every internal split point is strictly inside the remaining
interval. -/
theorem apply_range_fragments_positive (name : String) (entries : List MapEntry)
    (m : Map) (R : SeedRange)
    (hm : Map.new name entries = .ok m)
    (hlen : ∀ e ∈ entries, 0 < e.range_length)
    (hR : 0 < R.length) :
    ∃ out, m.apply_range R = some out ∧ ∀ f ∈ out, 0 < f.length := by
  have hments : m.entries = sortEntries entries := by rw [Map.new_ok hm]
  have hlen1 : ∀ e ∈ m.entries, 0 < e.range_length := by
    intro e he
    rw [hments] at he
    exact hlen e ((sortEntries_perm entries).mem_iff.mp he)
  obtain ⟨⟨out, rem⟩, hgo⟩ :=
    applyRangeGo_total m.entries (fun e he => le_of_lt (hlen1 e he)) R
  have hout : ∀ f ∈ out, 0 < f.length :=
    applyRangeGo_pos m.entries hlen1 R out rem hgo hR
  refine ⟨_, by unfold Map.apply_range; rw [hgo], ?_⟩
  intro f hf
  by_cases hr : 0 < rem.length
  · rw [if_pos hr] at hf
    rcases List.mem_append.mp hf with hf | hf
    · exact hout f hf
    · simp only [List.mem_singleton] at hf
      subst hf
      exact hr
  · rw [if_neg hr] at hf
    exact hout f hf

/-- Witness for C10 on the exterior example: stage mapping [4, 6) applied
to [2, 8) yields three fragments, all of positive length. -/
theorem apply_range_fragments_positive_witness :
    ∃ out, (Map.mk "w10" [⟨10, 4, 2⟩]).apply_range ⟨2, 6⟩ = some out ∧
      ∀ f ∈ out, 0 < f.length :=
  apply_range_fragments_positive "w10" [⟨10, 4, 2⟩] _ ⟨2, 6⟩ rfl (by decide) (by decide)

end Day05

namespace Day05

/-- Conservation law on its intended domain: for a validated Stage whose
entries obey the data-model invariant of positive length and an input
range of non-negative length, apply_range returns fragments whose lengths
sum exactly to the input length, however the entry ranges overlap. -/
theorem apply_range_conservation_nonneg (name : String) (entries : List MapEntry)
    (m : Map) (R : SeedRange)
    (hm : Map.new name entries = .ok m)
    (hlen : ∀ e ∈ entries, 0 < e.range_length)
    (hR : 0 ≤ R.length) :
    ∃ out, m.apply_range R = some out ∧ (out.map SeedRange.length).sum = R.length := by
  have hments : m.entries = sortEntries entries := by rw [Map.new_ok hm]
  have hlen2 : ∀ e ∈ m.entries, 0 ≤ e.range_length := by
    intro e he
    rw [hments] at he
    exact le_of_lt (hlen e ((sortEntries_perm entries).mem_iff.mp he))
  obtain ⟨⟨out, rem⟩, hgo⟩ := applyRangeGo_total m.entries hlen2 R
  have hsum := applyRangeGo_sum m.entries R out rem hgo
  have hnn := applyRangeGo_nonneg m.entries R out rem hgo hR
  refine ⟨_, by unfold Map.apply_range; rw [hgo], ?_⟩
  by_cases hr : 0 < rem.length
  · rw [if_pos hr]
    simp only [List.map_append, List.sum_append, List.map_cons, List.map_nil,
      List.sum_cons, List.sum_nil]
    omega
  · rw [if_neg hr]
    omega

/-- Non-emptiness on its intended domain: whenever apply_range returns at
all on an input range of strictly positive length, the returned fragment
list is non-empty (the conservation invariant forces a positive total). -/
theorem apply_range_nonempty_pos (m : Map) (R : SeedRange) (out : List SeedRange)
    (hR : 0 < R.length) (h : m.apply_range R = some out) : out ≠ [] := by
  unfold Map.apply_range at h
  split at h
  · cases h
  · rename_i out0 rem hgo
    have hsum := applyRangeGo_sum m.entries R out0 rem hgo
    injection h with h
    subst h
    by_cases hr : 0 < rem.length
    · rw [if_pos hr]
      intro hcontra
      exact absurd (List.append_eq_nil.mp hcontra).2 (by simp)
    · rw [if_neg hr]
      intro hcontra
      subst hcontra
      simp only [List.map_nil, List.sum_nil] at hsum
      omega

end Day05
